import Mathlib

/-!
Verification of the NSGA-III implementation in
`jmetal/algorithm/multiobjective/nsgaiii.py`: reference point generation,
derived population size, non-dominated ranking, the replacement policy and
result extraction.

Objective vectors are embedded as `List Int` (the dominance logic only
compares coordinates), reference point coordinates as `List ℚ` (Python float
division `i / total` becomes exact rational division).
-/

namespace NSGAIII

/-- Inner recursion of `NSGAIII.generate_reference_points`.  The Python code
mutates `position` in place and deep-copies it at each leaf; since every index
up to `element` is overwritten along the current path before a leaf is
reached, threading an immutable list through `List.set` yields the same
leaves.  `fuel` bounds the recursion depth: the Python recursion terminates
because `element` grows toward `num_objs - 1`, and `num_objs` is enough fuel
for every reachable call. -/
def gen_refs_recursive (fuel : Nat) (position : List ℚ)
    (num_objs left total element : Nat) : List (List ℚ) :=
  match fuel with
  | 0 => []
  | fuel + 1 =>
    if element + 1 = num_objs then
      [position.set element ((left : ℚ) / (total : ℚ))]
    else
      (List.range left).flatMap fun i =>
        gen_refs_recursive fuel (position.set element ((i : ℚ) / (total : ℚ)))
          num_objs (left - i) total (element + 1)

/-- `NSGAIII.generate_reference_points(num_objs, num_divisions_per_obj)`:
starts the recursion from the all-zero position with
`left = total = num_objs * num_divisions_per_obj` (the Python default for
`num_divisions_per_obj` is 4). -/
def generate_reference_points (num_objs num_divisions_per_obj : Nat) :
    List (List ℚ) :=
  gen_refs_recursive num_objs (List.replicate num_objs 0) num_objs
    (num_objs * num_divisions_per_obj) (num_objs * num_divisions_per_obj) 0

/-- The constructor loop
`while self.population_size % 4 > 0: self.population_size += 1`. -/
def round_up_to_multiple_of_four (n : Nat) : Nat :=
  if n % 4 = 0 then n else round_up_to_multiple_of_four (n + 1)
termination_by (4 - n % 4) % 4
decreasing_by omega

/-- `population_size` as set by `NSGAIII.__init__`: the number of generated
reference points, rounded up by the `% 4` loop. -/
def population_size (num_objs num_divisions_per_obj : Nat) : Nat :=
  round_up_to_multiple_of_four
    (generate_reference_points num_objs num_divisions_per_obj).length

/-- Integer-numerator layer of the generator: `refNumerators k left` lists the
numerator vectors produced by `gen_refs_recursive` when `k` coordinates
remain to be fixed; each vector is later divided coordinatewise by `total`.
Mirrors the recursion exactly: the loop index `i` ranges over
`List.range left`, i.e. `0 ≤ i < left`. -/
def refNumerators : Nat → Nat → List (List Nat)
  | 0, _ => [[]]
  | 1, left => [[left]]
  | k + 2, left => (List.range left).flatMap fun i =>
      (refNumerators (k + 1) (left - i)).map fun ks => i :: ks

theorem gen_refs_recursive_eq (k : Nat) :
    ∀ (fuel : Nat) (position : List ℚ) (num_objs left total element : Nat),
      element + (k + 1) = num_objs → position.length = num_objs →
      k + 1 ≤ fuel →
      gen_refs_recursive fuel position num_objs left total element =
        (refNumerators (k + 1) left).map fun ks =>
          position.take element ++ ks.map fun j : Nat => (j : ℚ) / (total : ℚ) := by
  induction k with
  | zero =>
    intro fuel position num_objs left total element hel hlen hfuel
    match fuel, hfuel with
    | fuel + 1, _ =>
      simp only [gen_refs_recursive, if_pos hel, refNumerators, List.map_cons,
        List.map_nil]
      have hlt : element < position.length := by omega
      rw [List.set_eq_take_append_cons_drop, if_pos hlt]
      have hdrop : position.drop (element + 1) = [] := by
        apply List.drop_eq_nil_of_le; omega
      simp [hdrop]
  | succ k ih =>
    intro fuel position num_objs left total element hel hlen hfuel
    match fuel, hfuel with
    | fuel + 1, hfuel =>
      have hne : ¬ element + 1 = num_objs := by omega
      simp only [gen_refs_recursive, if_neg hne]
      show (List.range left).flatMap _ = _
      conv_rhs => rw [show k + 1 + 1 = k + 2 from rfl, refNumerators]
      rw [List.map_flatMap]
      apply List.flatMap_congr ?_
      intro i hi
      rw [ih fuel _ num_objs (left - i) total (element + 1) (by omega)
        (by simpa using hlen) (by omega)]
      rw [List.map_map]
      apply List.map_congr_left
      intro ks _
      have hlt : element < position.length := by omega
      simp only [Function.comp]
      rw [List.set_eq_take_append_cons_drop, if_pos hlt]
      rw [List.take_append_eq_append_take]
      have h1 : (position.take element).length = element :=
        List.length_take_of_le (by omega)
      rw [List.take_of_length_le (by simp [h1])]
      simp [h1, List.map_cons]

/-- Bridge: for at least one objective the generator is the numerator layer
divided coordinatewise by `num_objs * num_divisions_per_obj`. -/
theorem generate_reference_points_eq (M H : Nat) (hM : 1 ≤ M) :
    generate_reference_points M H =
      (refNumerators M (M * H)).map fun ks =>
        ks.map fun j : Nat => (j : ℚ) / ((M * H : Nat) : ℚ) := by
  unfold generate_reference_points
  obtain ⟨k, rfl⟩ : ∃ k, M = k + 1 := ⟨M - 1, by omega⟩
  rw [gen_refs_recursive_eq k (k + 1) _ (k + 1) ((k+1) * H) ((k+1) * H) 0
    (by omega) (by simp) (by omega)]
  simp

/-- Length recurrence of the numerator layer. -/
theorem refNumerators_length_rec (k left : Nat) :
    (refNumerators (k + 2) left).length =
      ((List.range left).map fun i =>
        (refNumerators (k + 1) (left - i)).length).sum := by
  rw [refNumerators]
  rw [List.length_flatMap]
  apply congrArg
  apply List.map_congr_left
  intro i _
  simp

/-- Leaf count of the numerator layer: with `k + 1` coordinates left to fix
and budget `left`, the recursion produces `C(left + k - 1, k)` vectors. -/
theorem refNumerators_length (k : Nat) :
    ∀ left : Nat,
      (refNumerators (k + 1) left).length = Nat.choose (left + k - 1) k := by
  induction k with
  | zero => intro left; simp [refNumerators]
  | succ k ih =>
    intro left
    induction left with
    | zero =>
      rw [show k + 1 + 1 = k + 2 from by omega, refNumerators_length_rec]
      simp [Nat.choose_eq_zero_of_lt]
    | succ left ihl =>
      rw [show k + 1 + 1 = k + 2 from by omega] at ihl ⊢
      rw [refNumerators_length_rec k (left + 1), List.range_succ_eq_map]
      simp only [List.map_cons, List.sum_cons, List.map_map]
      have hcomp :
          ((List.range left).map
              ((fun i => (refNumerators (k + 1) (left + 1 - i)).length) ∘
                (· + 1))).sum =
            ((List.range left).map fun i =>
              (refNumerators (k + 1) (left - i)).length).sum := by
        apply congrArg
        apply List.map_congr_left
        intro i _
        simp only [Function.comp]
        congr 2
        omega
      rw [hcomp, ← refNumerators_length_rec k left, ihl]
      have h0 : left + 1 - 0 = left + 1 := by omega
      rw [h0, ih (left + 1)]
      have e1 : left + 1 + k - 1 = left + k := by omega
      have e2 : left + (k + 1) - 1 = left + k := by omega
      have e3 : left + 1 + (k + 1) - 1 = left + k + 1 := by omega
      rw [e1, e2, e3]
      have hc : (left + k + 1).choose (k + 1) =
          (left + k).choose k + (left + k).choose (k + 1) :=
        Nat.choose_succ_succ (left + k) k
      omega

/-- Structural facts about the numerator vectors: with `k + 1` coordinates
remaining and budget `left`, every produced vector has length `k + 1`, sums
to `left`, and (whenever `left ≥ 1`) ends in a strictly positive numerator —
the loop `for i in range(left)` never spends the whole remaining budget
before the last coordinate. -/
theorem refNumerators_mem (k : Nat) :
    ∀ left ks, ks ∈ refNumerators (k + 1) left →
      ks.length = k + 1 ∧ ks.sum = left ∧ (1 ≤ left → 1 ≤ ks.getLastD 0) := by
  induction k with
  | zero =>
    intro left ks hks
    simp only [refNumerators, List.mem_singleton] at hks
    subst hks
    simp
  | succ k ih =>
    intro left ks hks
    rw [show k + 1 + 1 = k + 2 from rfl, refNumerators] at hks
    simp only [List.mem_flatMap, List.mem_map, List.mem_range] at hks
    obtain ⟨i, hi, ks', hks', rfl⟩ := hks
    obtain ⟨hlen, hsum, hlast⟩ := ih (left - i) ks' hks'
    refine ⟨by simp [hlen], by simp [hsum]; omega, ?_⟩
    intro _
    have hne : ks' ≠ [] := by
      intro h; rw [h] at hlen; simp at hlen
    have : (i :: ks').getLastD 0 = ks'.getLastD 0 := by
      cases ks' with
      | nil => exact absurd rfl hne
      | cons y ys => simp [List.getLastD_cons]
    rw [this]
    exact hlast (by omega)

/-- Closed form of the constructor's `% 4` loop. -/
theorem round_up_to_multiple_of_four_eq :
    ∀ (fuel n : Nat), (4 - n % 4) % 4 ≤ fuel →
      round_up_to_multiple_of_four n = n + (4 - n % 4) % 4 := by
  intro fuel
  induction fuel with
  | zero =>
    intro n h
    rw [round_up_to_multiple_of_four]
    have h0 : n % 4 = 0 := by omega
    rw [if_pos h0]
    omega
  | succ fuel ih =>
    intro n h
    rw [round_up_to_multiple_of_four]
    by_cases h0 : n % 4 = 0
    · rw [if_pos h0]; omega
    · rw [if_neg h0]
      rw [ih (n + 1) (by omega)]
      omega

/-- Modelled from the spec: the pluggable `DominanceComparator` (§4.2 and
glossary), whose code is not part of this excerpt.  Minimization: `a`
dominates `b` iff `a` is no worse in every objective and strictly better in
at least one. -/
def dominates (a b : List Int) : Bool :=
  ((a.zip b).all fun p => decide (p.1 ≤ p.2)) &&
    ((a.zip b).any fun p => decide (p.1 < p.2))

/-- A solution is non-dominated within `pop` when no member dominates it. -/
def non_dominated_in (pop : List (List Int)) (s : List Int) : Bool :=
  pop.all fun t => ! dominates t s

/-- Modelled from the spec: the front-peeling of `FastNonDominatedRanking`
(§4.2), whose code is not part of this excerpt.  Each round emits the
solutions with dominance count zero among the remaining ones; `fuel` bounds
the number of rounds (each round removes at least one solution, so the input
length is enough fuel). -/
def peel_fronts : Nat → List (List Int) → List (List (List Int))
  | _, [] => []
  | 0, _ :: _ => []
  | fuel + 1, s :: pop =>
      (s :: pop).filter (non_dominated_in (s :: pop)) ::
        peel_fronts fuel ((s :: pop).filter fun t => ! non_dominated_in (s :: pop) t)

/-- Modelled from the spec: `FastNonDominatedRanking.compute_ranking`. -/
def compute_ranking (pop : List (List Int)) : List (List (List Int)) :=
  peel_fronts pop.length pop

/-- Modelled from the spec: `Ranking.get_subfront(i)` returns the `i`-th
front of the computed ranking. -/
def get_subfront (fronts : List (List (List Int))) (i : Nat) : List (List Int) :=
  fronts.getD i []

/-- `NSGAIII.get_result`: re-rank `self.solutions` and return front 0. -/
def get_result (solutions : List (List Int)) : List (List Int) :=
  get_subfront (compute_ranking solutions) 0

theorem dominates_irrefl (a : List Int) : dominates a a = false := by
  have h : (a.zip a).any (fun p => decide (p.1 < p.2)) = false := by
    induction a with
    | nil => rfl
    | cons x xs ih => simp [List.zip_cons_cons, ih]
  simp [dominates, h]

theorem dominates_trans :
    ∀ (a b c : List Int), a.length = b.length → b.length = c.length →
      dominates a b = true → dominates b c = true → dominates a c = true := by
  have le_all : ∀ (a b c : List Int), a.length = b.length →
      b.length = c.length →
      ((a.zip b).all fun p => decide (p.1 ≤ p.2)) = true →
      ((b.zip c).all fun p => decide (p.1 ≤ p.2)) = true →
      ((a.zip c).all fun p => decide (p.1 ≤ p.2)) = true := by
    intro a
    induction a with
    | nil => intro b c _ _ _ _; simp
    | cons x xs ih =>
      intro b c hab hbc h1 h2
      cases b with
      | nil => simp at hab
      | cons y ys =>
        cases c with
        | nil => simp at hbc
        | cons z zs =>
          simp only [List.zip_cons_cons, List.all_cons, Bool.and_eq_true,
            decide_eq_true_eq] at h1 h2 ⊢
          exact ⟨le_trans h1.1 h2.1,
            ih ys zs (by simpa using hab) (by simpa using hbc) h1.2 h2.2⟩
  have lt_any : ∀ (a b c : List Int), a.length = b.length →
      b.length = c.length →
      ((a.zip b).any fun p => decide (p.1 < p.2)) = true →
      ((b.zip c).all fun p => decide (p.1 ≤ p.2)) = true →
      ((a.zip c).any fun p => decide (p.1 < p.2)) = true := by
    intro a
    induction a with
    | nil => intro b c _ _ h _; simp at h
    | cons x xs ih =>
      intro b c hab hbc h1 h2
      cases b with
      | nil => simp at hab
      | cons y ys =>
        cases c with
        | nil => simp at hbc
        | cons z zs =>
          simp only [List.zip_cons_cons, List.any_cons, List.all_cons,
            Bool.or_eq_true, Bool.and_eq_true, decide_eq_true_eq] at h1 h2 ⊢
          rcases h1 with h1 | h1
          · exact Or.inl (lt_of_lt_of_le h1 h2.1)
          · exact Or.inr (ih ys zs (by simpa using hab) (by simpa using hbc)
              h1 h2.2)
  intro a b c hab hbc h1 h2
  simp only [dominates, Bool.and_eq_true] at h1 h2 ⊢
  exact ⟨le_all a b c hab hbc h1.1 h2.1, lt_any a b c hab hbc h1.2 h2.1⟩

/-- In a set of equal-length objective vectors there is always a solution
dominated by nobody (dominance is a strict order), so front 0 is never
empty for a nonempty input. -/
theorem exists_non_dominated (M : Nat) :
    ∀ (l : List (List Int)), (∀ s ∈ l, s.length = M) → l ≠ [] →
      ∃ s ∈ l, ∀ t ∈ l, dominates t s = false := by
  intro l
  induction l with
  | nil => intro _ h; exact absurd rfl h
  | cons x xs ih =>
    intro hM _
    by_cases hxs : xs = []
    · subst hxs
      refine ⟨x, by simp, ?_⟩
      intro t ht
      simp only [List.mem_singleton] at ht
      subst ht
      exact dominates_irrefl t
    · obtain ⟨m, hm, hmin⟩ :=
        ih (fun s hs => hM s (List.mem_cons_of_mem x hs)) hxs
      by_cases hx : dominates x m = true
      · refine ⟨x, by simp, ?_⟩
        intro t ht
        rcases List.mem_cons.mp ht with rfl | ht
        · exact dominates_irrefl t
        · by_contra hcon
          have htx : dominates t x = true := by
            cases h : dominates t x
            · exact absurd h hcon
            · rfl
          have : dominates t m = true :=
            dominates_trans t x m
              (by rw [hM t (List.mem_cons_of_mem x ht), hM x (by simp)])
              (by rw [hM x (by simp), hM m (List.mem_cons_of_mem x hm)])
              htx hx
          rw [hmin t ht] at this
          exact Bool.false_ne_true this
      · refine ⟨m, List.mem_cons_of_mem x hm, ?_⟩
        intro t ht
        rcases List.mem_cons.mp ht with rfl | ht
        · exact Bool.not_eq_true _ ▸ Bool.of_not_eq_true hx
        · exact hmin t ht

theorem length_filter_add_length_filter_neg {α : Type} (p : α → Bool)
    (l : List α) :
    (l.filter p).length + (l.filter fun a => ! p a).length = l.length := by
  induction l with
  | nil => rfl
  | cons x xs ih =>
    by_cases h : p x = true
    · simp [List.filter_cons, h, ih]
      omega
    · have h2 : p x = false := by
        cases hpx : p x
        · rfl
        · exact absurd hpx h
      simp [List.filter_cons, h2, ih]
      omega

/-- The peeling covers the whole input: the front lengths of the computed
ranking sum to the population size (every solution lands in exactly one
front).  Needs the data-model invariant that all objective vectors have the
same length, so that dominance is a strict order and every round makes
progress. -/
theorem peel_fronts_sum (M : Nat) :
    ∀ (fuel : Nat) (pop : List (List Int)), pop.length ≤ fuel →
      (∀ s ∈ pop, s.length = M) →
      ((peel_fronts fuel pop).map List.length).sum = pop.length := by
  intro fuel
  induction fuel with
  | zero =>
    intro pop hle _
    have : pop = [] := List.length_eq_zero.mp (by omega)
    subst this
    rfl
  | succ fuel ih =>
    intro pop hle hM
    cases pop with
    | nil => rfl
    | cons s rest =>
      rw [peel_fronts]
      simp only [List.map_cons, List.sum_cons]
      have hprog : (List.filter (non_dominated_in (s :: rest)) (s :: rest)).length ≥ 1 := by
        obtain ⟨m, hm, hmin⟩ := exists_non_dominated M (s :: rest) hM (by simp)
        have hmem : m ∈ List.filter (non_dominated_in (s :: rest)) (s :: rest) := by
          rw [List.mem_filter]
          refine ⟨hm, ?_⟩
          unfold non_dominated_in
          rw [List.all_eq_true]
          intro t ht
          rw [hmin t ht]
          rfl
        have := List.length_pos.mpr (List.ne_nil_of_mem hmem)
        omega
      have hpart := length_filter_add_length_filter_neg
        (non_dominated_in (s :: rest)) (s :: rest)
      have hrest :
          ((peel_fronts fuel
              ((s :: rest).filter fun t => ! non_dominated_in (s :: rest) t)).map
            List.length).sum =
          ((s :: rest).filter fun t => ! non_dominated_in (s :: rest) t).length := by
        apply ih
        · have : (s :: rest).length = rest.length + 1 := by simp
          omega
        · intro t ht
          exact hM t (List.mem_of_mem_filter ht)
      rw [hrest]
      omega

theorem compute_ranking_sum (M : Nat) (pop : List (List Int))
    (hM : ∀ s ∈ pop, s.length = M) :
    ((compute_ranking pop).map List.length).sum = pop.length :=
  peel_fronts_sum M pop.length pop le_rfl hM

/-- Front 0 of the computed ranking is the filter of non-dominated
solutions. -/
theorem compute_ranking_front_zero (pop : List (List Int)) :
    get_subfront (compute_ranking pop) 0 =
      pop.filter (non_dominated_in pop) := by
  cases pop with
  | nil => rfl
  | cons s rest =>
    show get_subfront (peel_fronts (rest.length + 1) (s :: rest)) 0 = _
    rw [peel_fronts]
    rfl

/-- The while loop of `NSGAIII.replacement` together with the final
`EnvironmentalSelection` call, walking the ranked fronts in order with the
accumulator `pop`.  `env k f` stands for
`EnvironmentalSelection(..., k=k).execute(f)`, taken as a parameter because
the operator's code is outside this excerpt.  The first result component is
the returned population (`none` models the `IndexError` raised by
`get_subfront` when the fronts are exhausted); the second records the
`(k, boundary front)` argument of each `EnvironmentalSelection` invocation. -/
def replacement_loop (P : Nat)
    (env : Nat → List (List Int) → List (List Int)) :
    List (List (List Int)) → List (List Int) →
      Option (List (List Int)) × List (Nat × List (List Int))
  | [], _ => (none, [])
  | f :: rest, pop =>
    if pop.length < P then
      if f.length < P - pop.length then
        replacement_loop P env rest (pop ++ f)
      else
        (some (pop ++ env (P - pop.length) f), [(P - pop.length, f)])
    else
      (some (pop ++ env (P - pop.length) f), [(P - pop.length, f)])

/-- `NSGAIII.replacement(population, offspring_population)`: rank the
combined set, then run the accumulation loop starting from the empty
survivor list. -/
def replacement (P : Nat) (env : Nat → List (List Int) → List (List Int))
    (population offspring : List (List Int)) : Option (List (List Int)) :=
  (replacement_loop P env (compute_ranking (population ++ offspring)) []).1

/-- The `(k, boundary front)` arguments passed to `EnvironmentalSelection`
during `NSGAIII.replacement`. -/
def replacement_env_calls (P : Nat)
    (env : Nat → List (List Int) → List (List Int))
    (population offspring : List (List Int)) :
    List (Nat × List (List Int)) :=
  (replacement_loop P env (compute_ranking (population ++ offspring)) []).2

/-- Master lemma for the replacement loop: as long as the target is not yet
reached and the remaining fronts hold enough solutions, the loop accumulates
the fronts strictly smaller than the remaining slots whole, and performs
exactly one `EnvironmentalSelection` invocation, on the first front at least
as large as the remaining slots, with `k` = remaining slots. -/
theorem replacement_loop_spec (P : Nat)
    (env : Nat → List (List Int) → List (List Int)) :
    ∀ (fronts : List (List (List Int))) (pop : List (List Int)),
      pop.length < P →
      P ≤ pop.length + (fronts.map List.length).sum →
      ∃ j k f,
        fronts[j]? = some f ∧
        k = P - (pop.length + ((fronts.take j).map List.length).sum) ∧
        1 ≤ k ∧ k ≤ f.length ∧
        (∀ i, i < j → ∃ g, fronts[i]? = some g ∧
          g.length <
            P - (pop.length + ((fronts.take i).map List.length).sum)) ∧
        replacement_loop P env fronts pop =
          (some (pop ++ (fronts.take j).flatten ++ env k f), [(k, f)]) := by
  intro fronts
  induction fronts with
  | nil =>
    intro pop h1 h2
    simp only [List.map_nil, List.sum_nil] at h2
    omega
  | cons f rest ih =>
    intro pop h1 h2
    by_cases hf : f.length < P - pop.length
    · have h1' : (pop ++ f).length < P := by
        simp only [List.length_append]
        omega
      have h2' : P ≤ (pop ++ f).length + (rest.map List.length).sum := by
        simp only [List.length_append, List.map_cons, List.sum_cons] at h2 ⊢
        omega
      obtain ⟨j, k, f', hj, hk, hk1, hkf, hsmall, heq⟩ := ih (pop ++ f) h1' h2'
      refine ⟨j + 1, k, f', ?_, ?_, hk1, hkf, ?_, ?_⟩
      · simpa using hj
      · simp only [List.take_succ_cons, List.map_cons, List.sum_cons,
          List.length_append] at hk ⊢
        omega
      · intro i hi
        cases i with
        | zero =>
          refine ⟨f, by simp, ?_⟩
          simpa using hf
        | succ i =>
          obtain ⟨g, hg, hglt⟩ := hsmall i (by omega)
          refine ⟨g, by simpa using hg, ?_⟩
          simp only [List.take_succ_cons, List.map_cons, List.sum_cons,
            List.length_append] at hglt ⊢
          omega
      · rw [replacement_loop]
        rw [if_pos h1, if_pos hf, heq]
        simp [List.take_succ_cons, List.flatten_cons, List.append_assoc]
    · refine ⟨0, P - pop.length, f, by simp, by simp, by omega, by omega,
        by omega, ?_⟩
      rw [replacement_loop]
      rw [if_pos h1, if_neg hf]
      simp

/-! ### Helper facts shared by the claim theorems -/

theorem round_up_closed (n : Nat) :
    round_up_to_multiple_of_four n = n + (4 - n % 4) % 4 :=
  round_up_to_multiple_of_four_eq ((4 - n % 4) % 4) n le_rfl

theorem ref_points_len_24 : (generate_reference_points 2 4).length = 8 := by
  rw [generate_reference_points_eq 2 4 (by omega), List.length_map]
  decide

theorem ref_points_len_34 : (generate_reference_points 3 4).length = 78 := by
  rw [generate_reference_points_eq 3 4 (by omega), List.length_map]
  decide

theorem pop_size_34 : population_size 3 4 = 80 := by
  unfold population_size
  rw [ref_points_len_34, round_up_closed]

theorem list_sum_map_div (c : ℚ) :
    ∀ ks : List Nat,
      (ks.map fun j : Nat => (j : ℚ) / c).sum = ((ks.sum : Nat) : ℚ) / c := by
  intro ks
  induction ks with
  | nil => simp
  | cons x xs ih =>
    simp only [List.map_cons, List.sum_cons, ih]
    rw [Nat.cast_add, add_div]

theorem mem_ref_points_24 :
    [(1 : ℚ)/8, 7/8] ∈ generate_reference_points 2 4 := by
  rw [generate_reference_points_eq 2 4 (by omega)]
  apply List.mem_map.mpr
  refine ⟨[1, 7], by decide, ?_⟩
  norm_num

theorem getLastD_map_of_ne_nil (f : Nat → ℚ) (c : ℚ) :
    ∀ ks : List Nat, ks ≠ [] → (ks.map f).getLastD c = f (ks.getLastD 0) := by
  intro ks hks
  rw [List.getLastD_eq_getLast?, List.getLastD_eq_getLast?, List.getLast?_map]
  cases h : ks.getLast? with
  | none => exact absurd (List.getLast?_eq_none_iff.mp h) hks
  | some x => simp [h]

theorem getLastD_replicate_zero (c : ℚ) :
    ∀ n : Nat, (List.replicate (n + 1) (0 : ℚ)).getLastD c = 0 := by
  intro n
  induction n with
  | zero => rfl
  | succ n ih =>
    rw [List.replicate_succ, List.getLastD_cons]
    simpa [List.getLastD_eq_getLast?] using ih

/-! ### Claims -/

/-- C1 counterexample: for `M = 2` objectives and `H = 4` divisions the
generator does not produce `C(H + M - 1, M - 1) = 5` points — it produces
8. -/
theorem reference_point_count_claim_counterexample :
    (generate_reference_points 2 4).length ≠ Nat.choose (4 + 2 - 1) (2 - 1) := by
  rw [ref_points_len_24]
  decide

/-- C1 (amended): for every `M ≥ 1` and every `H ≥ 1` (at `H = 0` the source
divides by `total = 0` and raises `ZeroDivisionError`), the number of
generated reference points is `C(M*H + M - 2, M - 1)` — the recursion runs
with `total = M * H` units and its loop `for i in range(left)` stops short
of spending the whole remaining budget, so the count differs from the
Das-Dennis value `C(H + M - 1, M - 1)`. -/
theorem reference_point_count (M H : Nat) (hM : 1 ≤ M) (hH : 1 ≤ H) :
    (generate_reference_points M H).length =
      Nat.choose (M * H + M - 2) (M - 1) := by
  rw [generate_reference_points_eq M H hM, List.length_map]
  obtain ⟨k, rfl⟩ : ∃ k, M = k + 1 := ⟨M - 1, by omega⟩
  rw [refNumerators_length k ((k + 1) * H)]
  obtain ⟨T, hT⟩ : ∃ T, (k + 1) * H = T := ⟨_, rfl⟩
  rw [hT]
  rw [show T + (k + 1) - 2 = T + k - 1 from by omega,
    show k + 1 - 1 = k from by omega]

/-- C1 witness: at `M = 2`, `H = 4` the amended count evaluates to
`C(8, 1) = 8`. -/
theorem reference_point_count_witness :
    (generate_reference_points 2 4).length =
      Nat.choose (2 * 4 + 2 - 2) (2 - 1) :=
  reference_point_count 2 4 (by omega) (by omega)

/-- C5: the constructor's loop sets `population_size` to the smallest
multiple of 4 that is at least the number of generated reference points. -/
theorem population_size_rounds_up (M H : Nat) :
    population_size M H % 4 = 0 ∧
      (generate_reference_points M H).length ≤ population_size M H ∧
      ∀ m, m % 4 = 0 → (generate_reference_points M H).length ≤ m →
        population_size M H ≤ m := by
  unfold population_size
  rw [round_up_closed]
  refine ⟨by omega, by omega, ?_⟩
  intro m h4 hm
  omega

/-- C5 witness: at `M = 3`, `H = 4` there are 78 reference points and the
loop yields 80, a multiple of 4 between 78 and 80. -/
theorem population_size_rounds_up_witness :
    population_size 3 4 % 4 = 0 ∧ 78 ≤ population_size 3 4 ∧
      population_size 3 4 ≤ 80 := by
  obtain ⟨h1, h2, h3⟩ := population_size_rounds_up 3 4
  rw [ref_points_len_34] at h2
  exact ⟨h1, h2, h3 80 (by omega) (by rw [ref_points_len_34]; omega)⟩

/-- C6 counterexample: for `M = 3`, `H = 4` the generator does not yield 15
points. -/
theorem scenario_m3_h4_claim_counterexample :
    (generate_reference_points 3 4).length ≠ 15 := by
  rw [ref_points_len_34]
  decide

/-- C6 (amended): for `M = 3`, `H = 4` the generator yields exactly 78
points (`C(13, 2)`), and the derived `population_size` is 80, not 16. -/
theorem scenario_m3_h4 :
    (generate_reference_points 3 4).length = 78 ∧ population_size 3 4 = 80 :=
  ⟨ref_points_len_34, pop_size_34⟩

/-- C7: for a single objective (with the default `H = 4`) the generator
returns exactly one point, whose single coordinate is 1. -/
theorem single_objective_reference_point :
    generate_reference_points 1 4 = [[1]] := by
  rw [generate_reference_points_eq 1 4 le_rfl]
  norm_num [refNumerators]

/-- C2 counterexample: for `M = 2`, `H = 4` the generated point
`[1/8, 7/8]` has a coordinate `1/8` that is not a non-negative multiple of
`1/H = 1/4`. -/
theorem coordinate_multiples_claim_counterexample :
    ¬ (∀ p ∈ generate_reference_points 2 4, ∀ x ∈ p,
        ∃ k : Nat, x = (k : ℚ) / 4) := by
  intro h
  obtain ⟨k, hk⟩ := h [(1 : ℚ)/8, 7/8] mem_ref_points_24 ((1 : ℚ)/8) (by simp)
  have hk2 : (k : ℚ) = 1/2 := by linarith
  have hk3 : ((2 * k : Nat) : ℚ) = 1 := by push_cast; linarith
  have hk4 : (2 * k : Nat) = 1 := by exact_mod_cast hk3
  omega

/-- C2 (amended): for every `M ≥ 1` and `H ≥ 1`, every generated point has
`M` coordinates, each a non-negative multiple of `1 / (M*H)` (not of `1/H`:
the recursion divides by `total = M * num_divisions_per_obj`), and the
coordinates sum to exactly 1. -/
theorem reference_point_coordinates (M H : Nat) (hM : 1 ≤ M) (hH : 1 ≤ H) :
    ∀ p ∈ generate_reference_points M H,
      p.length = M ∧
      (∀ x ∈ p, 0 ≤ x ∧ ∃ k : Nat, x = (k : ℚ) / ((M * H : Nat) : ℚ)) ∧
      p.sum = 1 := by
  rw [generate_reference_points_eq M H hM]
  intro p hp
  obtain ⟨ks, hks, rfl⟩ := List.mem_map.mp hp
  obtain ⟨k0, rfl⟩ : ∃ k0, M = k0 + 1 := ⟨M - 1, by omega⟩
  obtain ⟨hlen, hsum, _⟩ := refNumerators_mem k0 ((k0 + 1) * H) ks hks
  have hT : ((( (k0 + 1) * H : Nat)) : ℚ) ≠ 0 :=
    Nat.cast_ne_zero.mpr (Nat.mul_ne_zero (by omega) (by omega))
  refine ⟨by simp [hlen], ?_, ?_⟩
  · intro x hx
    obtain ⟨j, _, rfl⟩ := List.mem_map.mp hx
    refine ⟨by positivity, j, rfl⟩
  · rw [list_sum_map_div, hsum, div_self hT]

/-- C2 witness: the generated point `[1/8, 7/8]` (for `M = 2`, `H = 4`) has
2 coordinates, each a non-negative multiple of `1/8`, summing to 1. -/
theorem reference_point_coordinates_witness :
    [(1 : ℚ)/8, 7/8].length = 2 ∧
      (∀ x ∈ [(1 : ℚ)/8, 7/8], 0 ≤ x ∧
        ∃ k : Nat, x = (k : ℚ) / ((2 * 4 : Nat) : ℚ)) ∧
      [(1 : ℚ)/8, 7/8].sum = 1 :=
  reference_point_coordinates 2 4 (by omega) (by omega)
    [(1 : ℚ)/8, 7/8] mem_ref_points_24

/-- C10: for `M ≥ 2` objectives (and `H ≥ 1`) every generated point has last
coordinate at least `1 / (M*H)` — the loop `for i in range(left)` never
hands a zero budget to the final coordinate — and the simplex lattice point
`(1, 0, ..., 0)`, whose last coordinate is 0, is never generated, so the
returned set is not the complete lattice. -/
theorem last_coordinate_positive (M H : Nat) (hM : 2 ≤ M) (hH : 1 ≤ H) :
    (∀ p ∈ generate_reference_points M H,
        (1 : ℚ) / ((M * H : Nat) : ℚ) ≤ p.getLastD 0) ∧
      ((1 : ℚ) :: List.replicate (M - 1) 0) ∉ generate_reference_points M H := by
  have hMH : 1 ≤ M * H := by
    have := Nat.mul_le_mul hM hH
    omega
  have hTpos : (0 : ℚ) < ((M * H : Nat) : ℚ) := by
    exact_mod_cast hMH
  have hmain : ∀ p ∈ generate_reference_points M H,
      (1 : ℚ) / ((M * H : Nat) : ℚ) ≤ p.getLastD 0 := by
    rw [generate_reference_points_eq M H (by omega)]
    intro p hp
    obtain ⟨ks, hks, rfl⟩ := List.mem_map.mp hp
    obtain ⟨k0, hk0⟩ : ∃ k0, M = k0 + 1 := ⟨M - 1, by omega⟩
    rw [hk0] at hks
    obtain ⟨hlen, _, hlast⟩ := refNumerators_mem k0 (M * H) ks (by
      rw [hk0]; exact hks)
    have hne : ks ≠ [] := by
      intro h; rw [h] at hlen; simp at hlen
    rw [getLastD_map_of_ne_nil _ _ ks hne]
    have h1 : 1 ≤ ks.getLastD 0 := hlast hMH
    have h1q : (1 : ℚ) ≤ ((ks.getLastD 0 : Nat) : ℚ) := by exact_mod_cast h1
    exact (div_le_div_iff_of_pos_right hTpos).mpr h1q
  refine ⟨hmain, ?_⟩
  intro hmem
  have hlast := hmain _ hmem
  obtain ⟨m, hm⟩ : ∃ m, M - 1 = m + 1 := ⟨M - 2, by omega⟩
  rw [hm] at hlast
  rw [List.getLastD_cons, getLastD_replicate_zero] at hlast
  have : (0 : ℚ) < 1 / ((M * H : Nat) : ℚ) := by positivity
  linarith

/-- C10 witness: at `M = 2`, `H = 4` every point's last coordinate is at
least `1/8` and the lattice point `(1, 0)` is absent. -/
theorem last_coordinate_positive_witness :
    (∀ p ∈ generate_reference_points 2 4,
        (1 : ℚ) / ((2 * 4 : Nat) : ℚ) ≤ p.getLastD 0) ∧
      ((1 : ℚ) :: List.replicate (2 - 1) 0) ∉ generate_reference_points 2 4 :=
  last_coordinate_positive 2 4 (by omega) (by omega)

/-- C8: `get_result` re-ranks the final population and returns exactly
front 0, which is precisely the subset of solutions dominated by no member
of the population. -/
theorem get_result_is_front_zero (solutions : List (List Int)) :
    get_result solutions = solutions.filter (non_dominated_in solutions) ∧
      ∀ s, s ∈ get_result solutions ↔
        s ∈ solutions ∧ ∀ t ∈ solutions, dominates t s = false := by
  have h : get_result solutions = solutions.filter (non_dominated_in solutions) :=
    compute_ranking_front_zero solutions
  refine ⟨h, ?_⟩
  intro s
  rw [h, List.mem_filter]
  simp [non_dominated_in, List.all_eq_true]

/-- C3: whenever the combined parent+offspring collection holds at least
`population_size ≥ 1` solutions (all objective vectors of one length `M`)
and `EnvironmentalSelection` meets its contract of returning exactly `k`
solutions, `replacement` returns a population of exactly `population_size`
solutions. -/
theorem replacement_output_size (P M : Nat)
    (env : Nat → List (List Int) → List (List Int))
    (population offspring : List (List Int))
    (hP : 1 ≤ P) (hsize : P ≤ (population ++ offspring).length)
    (hobj : ∀ s ∈ population ++ offspring, s.length = M)
    (henv : ∀ k f, k ≤ f.length → (env k f).length = k) :
    (replacement P env population offspring).map List.length = some P := by
  have hsum := compute_ranking_sum M (population ++ offspring) hobj
  obtain ⟨j, k, f, hj, hk, hk1, hkf, _, heq⟩ :=
    replacement_loop_spec P env (compute_ranking (population ++ offspring)) []
      (by simpa using hP)
      (by simp only [List.length_nil, Nat.zero_add, hsum]; exact hsize)
  unfold replacement
  rw [heq]
  have hlen := henv k f hkf
  simp only [Option.map_some', List.nil_append, List.length_append,
    List.length_flatten, hlen, Option.some.injEq]
  have hle : (((compute_ranking (population ++ offspring)).take j).map
      List.length).sum ≤
      ((compute_ranking (population ++ offspring)).map List.length).sum := by
    conv_rhs => rw [← List.take_append_drop j
      (compute_ranking (population ++ offspring))]
    rw [List.map_append, List.sum_append]
    omega
  simp only [List.length_nil, Nat.zero_add] at hk
  omega

/-- C3 witness: a concrete call (`P = 2`, two one-objective solutions, the
contract-satisfying selection `f.take k`) returns exactly two solutions. -/
theorem replacement_output_size_witness :
    (replacement 2 (fun k f => f.take k) [[(0 : Int)], [5]] []).map
      List.length = some 2 :=
  replacement_output_size 2 1 (fun k f => f.take k) [[(0 : Int)], [5]] []
    (by omega) (by decide) (by decide)
    (fun k f hk => by rw [List.length_take]; omega)

/-- C9: under the same preconditions, every `EnvironmentalSelection`
invocation made by `replacement` receives `1 ≤ k ≤ |boundary front|`; in
particular `k` is never 0 and the selection's precondition is established
by the caller. -/
theorem replacement_env_call_bounds (P M : Nat)
    (env : Nat → List (List Int) → List (List Int))
    (population offspring : List (List Int))
    (hP : 1 ≤ P) (hsize : P ≤ (population ++ offspring).length)
    (hobj : ∀ s ∈ population ++ offspring, s.length = M) :
    ∀ c ∈ replacement_env_calls P env population offspring,
      1 ≤ c.1 ∧ c.1 ≤ c.2.length := by
  have hsum := compute_ranking_sum M (population ++ offspring) hobj
  obtain ⟨j, k, f, hj, hk, hk1, hkf, _, heq⟩ :=
    replacement_loop_spec P env (compute_ranking (population ++ offspring)) []
      (by simpa using hP)
      (by simp only [List.length_nil, Nat.zero_add, hsum]; exact hsize)
  intro c hc
  unfold replacement_env_calls at hc
  rw [heq] at hc
  simp only [List.mem_singleton] at hc
  subst hc
  exact ⟨hk1, hkf⟩

/-- C9 witness: in a concrete run the single selection invocation is
`(k, front) = (1, [[5]])`, and the theorem yields `1 ≤ 1 ≤ 1`. -/
theorem replacement_env_call_bounds_witness :
    1 ≤ ((1 : Nat), [[(5 : Int)]]).1 ∧
      ((1 : Nat), [[(5 : Int)]]).1 ≤ ((1 : Nat), [[(5 : Int)]]).2.length :=
  replacement_env_call_bounds 2 1 (fun k f => f.take k) [[(0 : Int)], [5]] []
    (by omega) (by decide) (by decide) ((1 : Nat), [[(5 : Int)]]) (by decide)

/-- C4 counterexample: with one solution and `population_size = 1`, the
boundary front (size 1) would exactly fill the remaining slot — it would
not overflow the target — yet `EnvironmentalSelection` is still invoked
(the loop breaks on `len(front) >= remaining`, not only on overflow). -/
theorem replacement_boundary_claim_counterexample :
    ¬ (∀ c ∈ replacement_env_calls 1 (fun k f => f.take k) [[(0 : Int)]] [],
        c.1 < c.2.length) := by
  decide

/-- C4 (amended): `replacement` ranks the combined set and accumulates whole
fronts in rank order while each front is strictly smaller than the number of
remaining slots; `EnvironmentalSelection` is invoked exactly once, on the
first front whose size is at least the remaining slots (which includes the
case where that front would exactly fill the target without overflowing),
with `k` equal to the remaining slots, and its result is appended. -/
theorem replacement_boundary_selection (P M : Nat)
    (env : Nat → List (List Int) → List (List Int))
    (population offspring : List (List Int))
    (hP : 1 ≤ P) (hsize : P ≤ (population ++ offspring).length)
    (hobj : ∀ s ∈ population ++ offspring, s.length = M) :
    ∃ j k f,
      (compute_ranking (population ++ offspring))[j]? = some f ∧
      k = P - (((compute_ranking (population ++ offspring)).take j).map
        List.length).sum ∧
      1 ≤ k ∧ k ≤ f.length ∧
      (∀ i, i < j →
        ∃ g, (compute_ranking (population ++ offspring))[i]? = some g ∧
          g.length < P - (((compute_ranking (population ++ offspring)).take
            i).map List.length).sum) ∧
      replacement P env population offspring =
        some (((compute_ranking (population ++ offspring)).take j).flatten ++
          env k f) ∧
      replacement_env_calls P env population offspring = [(k, f)] := by
  have hsum := compute_ranking_sum M (population ++ offspring) hobj
  obtain ⟨j, k, f, hj, hk, hk1, hkf, hsmall, heq⟩ :=
    replacement_loop_spec P env (compute_ranking (population ++ offspring)) []
      (by simpa using hP)
      (by simp only [List.length_nil, Nat.zero_add, hsum]; exact hsize)
  simp only [List.length_nil, Nat.zero_add] at hk hsmall
  refine ⟨j, k, f, hj, hk, hk1, hkf, hsmall, ?_, ?_⟩
  · unfold replacement
    rw [heq]
    simp
  · unfold replacement_env_calls
    rw [heq]

/-- C4 witness: concrete run (`P = 2`, fronts `[[0]]` then `[[5]]`): the
first front is accumulated whole, the second is the boundary front and the
selection is invoked once with `k = 1`. -/
theorem replacement_boundary_selection_witness :
    ∃ j k f,
      (compute_ranking ([[(0 : Int)], [5]] ++ []))[j]? = some f ∧
      k = 2 - (((compute_ranking ([[(0 : Int)], [5]] ++ [])).take j).map
        List.length).sum ∧
      1 ≤ k ∧ k ≤ f.length ∧
      (∀ i, i < j →
        ∃ g, (compute_ranking ([[(0 : Int)], [5]] ++ []))[i]? = some g ∧
          g.length < 2 - (((compute_ranking ([[(0 : Int)], [5]] ++ [])).take
            i).map List.length).sum) ∧
      replacement 2 (fun k f => f.take k) [[(0 : Int)], [5]] [] =
        some (((compute_ranking ([[(0 : Int)], [5]] ++ [])).take j).flatten ++
          f.take k) ∧
      replacement_env_calls 2 (fun k f => f.take k) [[(0 : Int)], [5]] [] =
        [(k, f)] :=
  replacement_boundary_selection 2 1 (fun k f => f.take k)
    [[(0 : Int)], [5]] [] (by omega) (by decide) (by decide)

end NSGAIII
